import Mathlib

/-!
# Verification of the Converge semantic indexing and retrieval core

This file gives a shallow embedding, in Lean 4, of the algorithmic core of the
Converge note-chat plugin (single TypeScript source file): the token estimator
and line chunker, cosine similarity, brute-force index search, document-level
similarity discovery, the threshold re-filter, the chat send/rollback flow, the
rebuild mutual-exclusion guard, index loading with dead-path pruning, and the
deduplicating context-list operations.

Modelling conventions:
* JavaScript numbers are idealised: vector components are rationals (every IEEE
  double is a rational), and the only irrational-producing operation, square
  root, is taken over the reals.  `JsVal` makes the NaN outcome of `0/0`
  explicit instead of relying on the Lean junk value (in this code the divisor
  of `cosineSimilarity` is zero exactly when the numerator is, so NaN is the
  only non-finite outcome and no infinity constructor is needed).
* `Array.prototype.sort` with comparator `(a, b) => b.score - a.score` is a
  stable sort; it is modelled by `List.mergeSort` with the Boolean relation
  "the comparator does not demand a swap".  Per the ECMAScript `SortCompare`
  clause, a NaN comparator value is treated as `+0`, i.e. a tie.
* Host-environment effects (file reads, HTTP calls, DOM) are passed in as
  explicit arguments or `Except` results; message/index state is passed as
  explicit state values.
-/

/-- Model of an Obsidian `TFile`: only the fields the plugin reads. -/
structure TFile where
  path : String
  basename : String
  extension : String
deriving DecidableEq, Repr

/-- `estimateTokens`: `Math.ceil(text.length / 4)` (≈4 chars per token). -/
def estimateTokens (text : String) : ℕ :=
  (text.length + 3) / 4

/-- Total estimated tokens of a list of lines. -/
def tokSum (ls : List String) : ℕ :=
  (ls.map estimateTokens).sum

/-- Helper for `splitLines`: scan the character list, cutting at `'\n'`. -/
def splitLinesAux : List Char → List Char → List String
  | [], acc => [String.mk acc.reverse]
  | c :: cs, acc =>
    if c = '\n' then String.mk acc.reverse :: splitLinesAux cs []
    else splitLinesAux cs (c :: acc)

/-- Model of JavaScript `text.split('\n')`: cut the string at every newline.
The result is never empty; the empty string yields `[""]`. -/
def splitLines (text : String) : List String :=
  splitLinesAux text.data []

/-- A chunk of text produced by the chunker (`TextChunk` in the source). -/
structure TextChunk where
  text : String
  startLine : ℕ
  endLine : ℕ
deriving DecidableEq, Repr

/-- The backward scan of `chunkText`'s overlap loop, over the *reversed*
buffer: keep taking lines while the accumulated token estimate is still
below `overlap` (`for (j = len-1; j >= 0 && overlapSize < overlap; j--)`). -/
def overlapTail : List String → ℕ → ℕ → List String
  | [], _, _ => []
  | l :: rest, overlap, size =>
    if size < overlap then l :: overlapTail rest overlap (size + estimateTokens l) else []

/-- The trailing-line window seeded into the next chunk: the overlap loop
collects lines from the end of the closed buffer backward (`unshift`). -/
def overlapWindow (buf : List String) (overlap : ℕ) : List String :=
  (overlapTail buf.reverse overlap 0).reverse

/-- The main accumulation loop of `chunkText`.  Arguments mirror the mutable
locals: remaining lines, current line index `i`, `currentChunk`,
`currentSize`, `startLine`.  The final `if` is the flush after the loop; its
`endLine` is `lines.length - 1`, which at that point equals `i - 1`. -/
def chunkLoop (chunkSize overlap : ℕ) :
    List String → ℕ → List String → ℕ → ℕ → List TextChunk
  | [], i, cur, _, startLine =>
    if cur = [] then [] else [⟨String.intercalate "\n" cur, startLine, i - 1⟩]
  | line :: rest, i, cur, size, startLine =>
    if chunkSize < size + estimateTokens line ∧ cur ≠ [] then
      let wnd := overlapWindow cur overlap
      ⟨String.intercalate "\n" cur, startLine, i - 1⟩ ::
        chunkLoop chunkSize overlap rest (i + 1) (wnd ++ [line])
          (tokSum wnd + estimateTokens line) (i - wnd.length)
    else
      chunkLoop chunkSize overlap rest (i + 1) (cur ++ [line])
        (size + estimateTokens line) startLine

/-- `chunkText(text, chunkSize, overlap)`: split on newlines and accumulate
lines into token-bounded chunks with trailing-line overlap seeding. -/
def chunkText (text : String) (chunkSize overlap : ℕ) : List TextChunk :=
  chunkLoop chunkSize overlap (splitLines text) 0 [] 0 0

example : splitLines "a\nb" = ["a", "b"] := by decide
example : splitLines "" = [""] := by decide
example : estimateTokens "aaaaaaaa" = 2 := by decide
example : chunkText "" 500 50 = [⟨"", 0, 0⟩] := by decide
example : chunkText "aaaaaaaa\naaaaaaaa\naaaaaaaa" 4 3 =
    [⟨"aaaaaaaa\naaaaaaaa", 0, 1⟩, ⟨"aaaaaaaa\naaaaaaaa\naaaaaaaa", 0, 2⟩] := by decide

/-- Lines `s` through `e` (inclusive) of the split input. -/
def sliceL (lines : List String) (s e : ℕ) : List String :=
  (lines.drop s).take (e + 1 - s)

/-- Chunk `c` covers line index `j`. -/
def coversLine (c : TextChunk) (j : ℕ) : Prop :=
  c.startLine ≤ j ∧ j ≤ c.endLine

instance (c : TextChunk) (j : ℕ) : Decidable (coversLine c j) :=
  inferInstanceAs (Decidable (c.startLine ≤ j ∧ j ≤ c.endLine))

/-- Structural relation between consecutive chunks: no gap, strictly
advancing end, non-decreasing start. -/
def chunkChain (c₁ c₂ : TextChunk) : Prop :=
  c₂.startLine ≤ c₁.endLine + 1 ∧ c₁.endLine < c₂.endLine ∧ c₁.startLine ≤ c₂.startLine

instance (c₁ c₂ : TextChunk) : Decidable (chunkChain c₁ c₂) :=
  inferInstanceAs (Decidable (_ ∧ _ ∧ _))

/-- The overlap bound as the spec claims it: the lines shared by two
consecutive chunks weigh at most `overlap` estimated tokens. -/
def overlapClaim (lines : List String) (overlap : ℕ) (c₁ c₂ : TextChunk) : Prop :=
  tokSum (sliceL lines c₂.startLine c₁.endLine) ≤ overlap

instance (lines : List String) (ov : ℕ) (c₁ c₂ : TextChunk) :
    Decidable (overlapClaim lines ov c₁ c₂) :=
  inferInstanceAs (Decidable (_ ≤ _))

/-- The overlap bound the code actually guarantees: either the chunks are
adjacent (empty overlap), or all lines of the shared window except its
first one weigh strictly less than `overlap` tokens (the window may
overshoot the budget by exactly the last line the backward scan took). -/
def overlapBudget (lines : List String) (overlap : ℕ) (c₁ c₂ : TextChunk) : Prop :=
  c₂.startLine = c₁.endLine + 1 ∨
    tokSum ((sliceL lines c₂.startLine c₁.endLine).drop 1) < overlap

/-- Well-formedness of one produced chunk: ordered in-range line indices and
text equal to the newline-join of exactly those lines. -/
def goodChunk (lines : List String) (c : TextChunk) : Prop :=
  c.startLine ≤ c.endLine ∧ c.endLine < lines.length ∧
    c.text = String.intercalate "\n" (sliceL lines c.startLine c.endLine)

theorem tokSum_reverse (ls : List String) : tokSum ls.reverse = tokSum ls := by
  simp [tokSum, List.sum_reverse]

theorem overlapTail_prefix (ov : ℕ) :
    ∀ (l : List String) (s : ℕ), overlapTail l ov s <+: l := by
  intro l
  induction l with
  | nil => intro s; simp [overlapTail]
  | cons x rest ih =>
    intro s
    by_cases h : s < ov
    · simpa [overlapTail, h, List.cons_prefix_cons] using ih (s + estimateTokens x)
    · simp [overlapTail, h]

theorem overlapTail_dropLast_sum (ov : ℕ) :
    ∀ (l : List String) (s : ℕ), overlapTail l ov s ≠ [] →
      s + tokSum (overlapTail l ov s).dropLast < ov := by
  intro l
  induction l with
  | nil => intro s h; simp [overlapTail] at h
  | cons x rest ih =>
    intro s h
    by_cases hs : s < ov
    · rw [overlapTail, if_pos hs] at h ⊢
      rcases hrec : overlapTail rest ov (s + estimateTokens x) with _ | ⟨y, ys⟩
      · simpa [hrec, tokSum] using hs
      · have := ih (s + estimateTokens x) (by rw [hrec]; simp)
        rw [hrec] at this
        rw [List.dropLast_cons_of_ne_nil (by simp)]
        simp only [tokSum, List.map_cons, List.sum_cons] at this ⊢
        omega
    · rw [overlapTail, if_neg hs] at h; exact absurd rfl h

theorem overlapWindow_suffix (buf : List String) (ov : ℕ) :
    overlapWindow buf ov <:+ buf := by
  rw [overlapWindow]
  exact List.reverse_prefix.mp (by simpa using overlapTail_prefix ov buf.reverse 0)

theorem overlapWindow_tail_sum (buf : List String) (ov : ℕ)
    (h : overlapWindow buf ov ≠ []) :
    tokSum ((overlapWindow buf ov).drop 1) < ov := by
  rw [overlapWindow] at h ⊢
  rw [List.drop_one, List.tail_reverse, tokSum_reverse]
  have hne : overlapTail buf.reverse ov 0 ≠ [] := by
    intro h0; rw [h0] at h; simp at h
  simpa using overlapTail_dropLast_sum ov buf.reverse 0 hne

theorem sliceL_eq {full cur tail' : List String} {sL i : ℕ}
    (h1 : sL + cur.length = i) (h2 : full.drop sL = cur ++ tail')
    (hne : cur ≠ []) :
    sliceL full sL (i - 1) = cur := by
  have hlen : 1 ≤ cur.length := List.length_pos.mpr hne
  have hstep : i - 1 + 1 - sL = cur.length := by omega
  rw [sliceL, hstep, h2, List.take_left]

/-- The invariant carried by `chunkLoop`: every produced chunk is
well-formed, the first one starts at `startLine` and ends no earlier than
`i - 1`, the last one ends at the last input line, consecutive chunks obey
the structural chain and the (amended) overlap budget, and every line from
`startLine` on is covered. -/
def loopInv (full : List String) (ov i sL : ℕ) (res : List TextChunk) : Prop :=
  (∀ c ∈ res, goodChunk full c) ∧
  (∀ h : res ≠ [], (res.head h).startLine = sL ∧ i - 1 ≤ (res.head h).endLine ∧
      (res.getLast h).endLine = full.length - 1) ∧
  List.Chain' chunkChain res ∧
  List.Chain' (overlapBudget full ov) res ∧
  (∀ j, sL ≤ j → j < full.length → ∃ c ∈ res, coversLine c j)

theorem chunkLoop_spec (cs ov : ℕ) (full : List String) :
    ∀ (rest : List String) (i : ℕ) (cur : List String) (size sL : ℕ),
      sL + cur.length = i →
      full.drop sL = cur ++ full.drop i →
      rest = full.drop i →
      i ≤ full.length →
      loopInv full ov i sL (chunkLoop cs ov rest i cur size sL) ∧
        (chunkLoop cs ov rest i cur size sL = [] ↔ (cur = [] ∧ rest = [])) := by
  intro rest
  induction rest with
  | nil =>
    intro i cur size sL h1 h2 h3 h4
    have hi : i = full.length := by
      have := List.drop_eq_nil_iff.mp h3.symm
      omega
    by_cases hcur : cur = []
    · subst hcur
      simp only [chunkLoop, if_pos rfl]
      refine ⟨⟨by simp, by simp, by simp, by simp, ?_⟩, by simp⟩
      intro j hj hj'
      simp at h1
      omega
    · have hlen : 1 ≤ cur.length := List.length_pos.mpr hcur
      simp only [chunkLoop, if_neg hcur]
      have h2'' : full.drop sL = cur ++ [] := by
        rw [h2, hi]
        simp
      have hslice : sliceL full sL (i - 1) = cur := sliceL_eq h1 h2'' hcur
      refine ⟨⟨?_, ?_, ?_, ?_, ?_⟩, by simp [hcur]⟩
      · intro c hc
        rw [List.mem_singleton] at hc
        subst hc
        refine ⟨show sL ≤ i - 1 by omega, show i - 1 < full.length by omega, ?_⟩
        show String.intercalate "\n" cur = String.intercalate "\n" (sliceL full sL (i - 1))
        rw [hslice]
      · intro h
        refine ⟨rfl, show i - 1 ≤ i - 1 from le_refl _, ?_⟩
        show i - 1 = full.length - 1
        omega
      · simp [List.chain'_singleton]
      · simp [List.chain'_singleton]
      · intro j hj hj'
        exact ⟨_, List.mem_singleton.mpr rfl, hj, show j ≤ i - 1 by omega⟩
  | cons line rest' ih =>
    intro i cur size sL h1 h2 h3 h4
    have hi : i < full.length := by
      by_contra hge
      have : full.drop i = [] := List.drop_eq_nil_iff.mpr (by omega)
      rw [this] at h3
      exact List.noConfusion h3
    have hdropi : full.drop i = line :: rest' := h3.symm
    have hdropsucc : full.drop (i + 1) = rest' := by
      have : full.drop (i + 1) = (full.drop i).drop 1 := by
        rw [List.drop_drop]
      rw [this, hdropi, List.drop_one, List.tail_cons]
    by_cases hc : cs < size + estimateTokens line ∧ cur ≠ []
    · -- close the current chunk and seed the overlap window
      have hcur : cur ≠ [] := hc.2
      have hclen : 1 ≤ cur.length := List.length_pos.mpr hcur
      rw [chunkLoop, if_pos hc]
      set wnd := overlapWindow cur ov with hwnd
      obtain ⟨pre, hpre⟩ := overlapWindow_suffix cur ov
      rw [← hwnd] at hpre
      have hwlen : wnd.length ≤ cur.length := by
        rw [← hpre]; simp
      have hplen : pre.length + wnd.length = cur.length := by
        rw [← hpre]; simp
      set sL' := i - wnd.length with hsL'
      have hsL'eq : sL' = sL + pre.length := by omega
      have hdrop' : full.drop sL' = wnd ++ full.drop i := by
        rw [hsL'eq, ← List.drop_drop, h2, ← hpre, List.append_assoc, List.drop_left]
      have h2' : full.drop sL' = (wnd ++ [line]) ++ full.drop (i + 1) := by
        rw [hdrop', hdropi, hdropsucc, List.append_assoc, List.singleton_append]
      have h1' : sL' + (wnd ++ [line]).length = i + 1 := by
        simp only [List.length_append, List.length_singleton]
        omega
      obtain ⟨⟨IH2, IH3, IH4, IH5, IH6⟩, IH1⟩ :=
        ih (i + 1) (wnd ++ [line]) (tokSum wnd + estimateTokens line) sL'
          h1' h2' hdropsucc.symm (by omega)
      set res' := chunkLoop cs ov rest' (i + 1) (wnd ++ [line])
        (tokSum wnd + estimateTokens line) sL' with hres'
      have hres'ne : res' ≠ [] := by
        intro h0
        exact absurd ((IH1.mp h0).1) (by simp)
      have hslice : sliceL full sL (i - 1) = cur := sliceL_eq h1 h2 hcur
      have hhead := IH3 hres'ne
      have hy2 := hhead.2.1
      refine ⟨⟨?_, ?_, ?_, ?_, ?_⟩, by simp⟩
      · intro c hc'
        rcases List.mem_cons.mp hc' with hcl | hcr
        · subst hcl
          refine ⟨show sL ≤ i - 1 by omega, show i - 1 < full.length by omega, ?_⟩
          show String.intercalate "\n" cur = String.intercalate "\n" (sliceL full sL (i - 1))
          rw [hslice]
        · exact IH2 c hcr
      · intro h
        refine ⟨rfl, show i - 1 ≤ i - 1 from le_refl _, ?_⟩
        show ((⟨String.intercalate "\n" cur, sL, i - 1⟩ :: res').getLast h).endLine =
          full.length - 1
        rw [List.getLast_cons hres'ne]
        exact hhead.2.2
      · rw [List.chain'_cons']
        refine ⟨?_, IH4⟩
        intro y hy
        have hy' : y = res'.head hres'ne := by
          rw [List.head?_eq_head hres'ne] at hy
          exact (Option.some_injective _ hy).symm
        subst hy'
        refine ⟨?_, ?_, ?_⟩
        · show (res'.head hres'ne).startLine ≤ (i - 1) + 1
          rw [hhead.1]; omega
        · show i - 1 < (res'.head hres'ne).endLine
          omega
        · show sL ≤ (res'.head hres'ne).startLine
          rw [hhead.1]; omega
      · rw [List.chain'_cons']
        refine ⟨?_, IH5⟩
        intro y hy
        have hy' : y = res'.head hres'ne := by
          rw [List.head?_eq_head hres'ne] at hy
          exact (Option.some_injective _ hy).symm
        subst hy'
        by_cases hwe : wnd = []
        · refine Or.inl ?_
          show (res'.head hres'ne).startLine = (i - 1) + 1
          rw [hhead.1]
          have : wnd.length = 0 := by rw [hwe]; rfl
          omega
        · refine Or.inr ?_
          have hwlen1 : 1 ≤ wnd.length := List.length_pos.mpr hwe
          have hregion : sliceL full sL' (i - 1) = wnd := by
            have h1w : sL' + wnd.length = i := by omega
            exact sliceL_eq h1w hdrop' hwe
          show tokSum ((sliceL full (res'.head hres'ne).startLine (i - 1)).drop 1) < ov
          rw [hhead.1, hregion]
          exact overlapWindow_tail_sum cur ov hwe
      · intro j hj hj'
        by_cases hjle : j ≤ i - 1
        · exact ⟨_, List.mem_cons_self _ _, hj, hjle⟩
        · obtain ⟨c, hc', hcov⟩ := IH6 j (by omega) hj'
          exact ⟨c, List.mem_cons_of_mem _ hc', hcov⟩
    · -- keep accumulating into the current chunk
      rw [chunkLoop, if_neg hc]
      have h2' : full.drop sL = (cur ++ [line]) ++ full.drop (i + 1) := by
        rw [h2, hdropi, hdropsucc, List.append_assoc, List.singleton_append]
      have h1' : sL + (cur ++ [line]).length = i + 1 := by
        simp only [List.length_append, List.length_singleton]
        omega
      obtain ⟨⟨IH2, IH3, IH4, IH5, IH6⟩, IH1⟩ :=
        ih (i + 1) (cur ++ [line]) (size + estimateTokens line) sL
          h1' h2' hdropsucc.symm (by omega)
      set res' := chunkLoop cs ov rest' (i + 1) (cur ++ [line])
        (size + estimateTokens line) sL with hres'
      have hres'ne : res' ≠ [] := by
        intro h0
        exact absurd ((IH1.mp h0).1) (by simp)
      refine ⟨⟨IH2, ?_, IH4, IH5, ?_⟩, by simp [hres'ne]⟩
      · intro h
        have := IH3 hres'ne
        exact ⟨this.1, by omega, this.2.2⟩
      · intro j hj hj'
        exact IH6 j hj hj'

theorem chain_head_start_le :
    ∀ (l : List TextChunk), List.Chain' chunkChain l →
      ∀ (h : l ≠ []) (c' : TextChunk), c' ∈ l → (l.head h).startLine ≤ c'.startLine := by
  intro l
  induction l with
  | nil => intro _ h; exact absurd rfl h
  | cons a l ih =>
    intro hch h c' hc'
    rcases List.mem_cons.mp hc' with rfl | hmem
    · exact le_refl _
    · have hlne : l ≠ [] := List.ne_nil_of_mem hmem
      have hlink : chunkChain a (l.head hlne) := by
        rcases List.chain'_cons'.mp hch with ⟨hl, _⟩
        exact hl _ (List.head?_eq_head hlne)
      have htail : List.Chain' chunkChain l := (List.chain'_cons'.mp hch).2
      exact le_trans hlink.2.2 (ih htail hlne c' hmem)

/-- Outside the overlap regions (the line spans shared by consecutive
chunks) no line index belongs to two chunks. -/
theorem covers_unique (j : ℕ) :
    ∀ (cks : List TextChunk), List.Chain' chunkChain cks →
      (∀ p ∈ cks.zip cks.tail, ¬(p.2.startLine ≤ j ∧ j ≤ p.1.endLine)) →
      List.Pairwise (fun c₁ c₂ => ¬(coversLine c₁ j ∧ coversLine c₂ j)) cks := by
  intro cks
  induction cks with
  | nil => intro _ _; exact List.Pairwise.nil
  | cons c cks ih =>
    intro hch hout
    have htail : List.Chain' chunkChain cks := (List.chain'_cons'.mp hch).2
    refine List.Pairwise.cons ?_ (ih htail ?_)
    · intro c' hc' ⟨hcov, hcov'⟩
      have hne : cks ≠ [] := List.ne_nil_of_mem hc'
      have hstart : (cks.head hne).startLine ≤ c'.startLine :=
        chain_head_start_le cks htail hne c' hc'
      have hpair : (c, cks.head hne) ∈ (c :: cks).zip cks := by
        cases cks with
        | nil => exact absurd rfl hne
        | cons b t => exact List.mem_cons_self _ _
      have := hout (c, cks.head hne) (by simpa using hpair)
      exact this ⟨le_trans hstart hcov'.1, hcov.2⟩
    · intro p hp
      refine hout p ?_
      cases cks with
      | nil => simp at hp
      | cons b t =>
        simp only [List.tail_cons] at hp ⊢
        exact List.mem_cons_of_mem _ hp

/-- Every line index of the input is covered by some chunk. -/
def chunkCoverage (lines : List String) (cks : List TextChunk) : Prop :=
  ∀ j, j < lines.length → ∃ c ∈ cks, coversLine c j

/-- Any line index lying outside every consecutive-pair overlap region is
covered by at most one chunk. -/
def nonOverlapUnique (lines : List String) (cks : List TextChunk) : Prop :=
  ∀ j, j < lines.length →
    (∀ p ∈ cks.zip cks.tail, ¬(p.2.startLine ≤ j ∧ j ≤ p.1.endLine)) →
    List.Pairwise (fun c₁ c₂ => ¬(coversLine c₁ j ∧ coversLine c₂ j)) cks

/-- Claim C2 exactly as the spec states it: every seeded overlap window
weighs at most `overlap` estimated tokens, and lines are covered exactly
once outside the overlap regions. -/
def chunkTextClaimedSpec (text : String) (chunkSize overlap : ℕ) : Prop :=
  List.Chain' (overlapClaim (splitLines text) overlap) (chunkText text chunkSize overlap) ∧
    chunkCoverage (splitLines text) (chunkText text chunkSize overlap) ∧
    nonOverlapUnique (splitLines text) (chunkText text chunkSize overlap)

/-- C2 (counterexample): with three 2-token lines, `chunkSize = 4` and
`overlap = 3`, the overlap window seeded after the first chunk consists of
both of its lines, weighing 4 > 3 estimated tokens, so the claimed
per-window budget is violated. -/
theorem chunkText_overlap_budget_cex :
    ¬ chunkTextClaimedSpec "aaaaaaaa\naaaaaaaa\naaaaaaaa" 4 3 := by
  intro h
  have h1 := h.1
  rw [show chunkText "aaaaaaaa\naaaaaaaa\naaaaaaaa" 4 3 =
      [⟨"aaaaaaaa\naaaaaaaa", 0, 1⟩, ⟨"aaaaaaaa\naaaaaaaa\naaaaaaaa", 0, 2⟩] from by decide]
    at h1
  exact absurd (List.chain'_pair.mp h1) (by decide)

/-- C2 (amended): every produced chunk is the newline-join of its declared
line range, chunk ranges chain with no gaps and strictly advancing ends,
every line is covered, lines outside the consecutive-pair overlap regions
are covered exactly once, and each overlap window, after dropping its first
line, weighs strictly less than `overlap` estimated tokens (the window may
overshoot the budget by its earliest line only). -/
theorem chunkText_spec (text : String) (chunkSize overlap : ℕ) :
    (∀ c ∈ chunkText text chunkSize overlap, goodChunk (splitLines text) c) ∧
    (∀ h : chunkText text chunkSize overlap ≠ [],
      ((chunkText text chunkSize overlap).head h).startLine = 0 ∧
      ((chunkText text chunkSize overlap).getLast h).endLine = (splitLines text).length - 1) ∧
    List.Chain' chunkChain (chunkText text chunkSize overlap) ∧
    List.Chain' (overlapBudget (splitLines text) overlap) (chunkText text chunkSize overlap) ∧
    chunkCoverage (splitLines text) (chunkText text chunkSize overlap) ∧
    nonOverlapUnique (splitLines text) (chunkText text chunkSize overlap) := by
  obtain ⟨⟨S2, S3, S4, S5, S6⟩, S1⟩ :=
    chunkLoop_spec chunkSize overlap (splitLines text) (splitLines text) 0 [] 0 0
      (by simp) (by simp) (by simp) (by simp)
  refine ⟨S2, ?_, S4, S5, ?_, ?_⟩
  · intro h
    exact ⟨(S3 h).1, (S3 h).2.2⟩
  · intro j hj
    exact S6 j (Nat.zero_le j) hj
  · intro j _ hout
    exact covers_unique j (chunkText text chunkSize overlap) S4 hout

/-- C2 (witness): on the three-line example the amended theorem applies;
line 2 lies outside the single overlap region (lines 0–1), and is covered
by at most one chunk. -/
theorem chunkText_spec_witness :
    2 < (splitLines "aaaaaaaa\naaaaaaaa\naaaaaaaa").length ∧
      List.Pairwise (fun c₁ c₂ => ¬(coversLine c₁ 2 ∧ coversLine c₂ 2))
        (chunkText "aaaaaaaa\naaaaaaaa\naaaaaaaa" 4 3) := by
  refine ⟨by decide, ?_⟩
  exact (chunkText_spec "aaaaaaaa\naaaaaaaa\naaaaaaaa" 4 3).2.2.2.2.2 2 (by decide) (by decide)

/-- C7 (counterexample): `chunkText` on the empty string produces one chunk
(the single empty line `"".split('\n') = [""]` survives to the final
flush), not zero chunks. -/
theorem chunkText_empty_cex :
    chunkText "" 500 50 = [⟨"", 0, 0⟩] ∧ chunkText "" 500 50 ≠ [] := by
  exact ⟨by decide, by decide⟩

/-- C7 (amended): the empty string yields exactly one chunk, holding the
empty line; and a single-line input whose token estimate alone exceeds
`chunkSize` still becomes exactly one chunk holding the whole line (no
line is ever split). -/
theorem chunkText_edge_spec :
    (∀ chunkSize overlap : ℕ, chunkText "" chunkSize overlap = [⟨"", 0, 0⟩]) ∧
    (∀ (text : String) (chunkSize overlap : ℕ), splitLines text = [text] →
      chunkSize < estimateTokens text →
      chunkText text chunkSize overlap = [⟨text, 0, 0⟩]) := by
  constructor
  · intro chunkSize overlap
    show chunkLoop chunkSize overlap (splitLines "") 0 [] 0 0 = _
    have hs : splitLines "" = [""] := by decide
    rw [hs, chunkLoop, if_neg (by simp), chunkLoop, if_neg (by simp)]
    decide
  · intro text chunkSize overlap hsplit _
    show chunkLoop chunkSize overlap (splitLines text) 0 [] 0 0 = _
    rw [hsplit, chunkLoop, if_neg (by simp), chunkLoop, if_neg (by simp)]
    simp [String.intercalate, String.intercalate.go]

/-- C7 (witness): a 40-character single line with `chunkSize = 3` becomes
its own single chunk. -/
theorem chunkText_edge_spec_witness :
    splitLines "aaaaaaaaaaaaaaaaaaaaaaaaaaaaaaaaaaaaaaaa" =
        ["aaaaaaaaaaaaaaaaaaaaaaaaaaaaaaaaaaaaaaaa"] ∧
      3 < estimateTokens "aaaaaaaaaaaaaaaaaaaaaaaaaaaaaaaaaaaaaaaa" ∧
      chunkText "aaaaaaaaaaaaaaaaaaaaaaaaaaaaaaaaaaaaaaaa" 3 1 =
        [⟨"aaaaaaaaaaaaaaaaaaaaaaaaaaaaaaaaaaaaaaaa", 0, 0⟩] := by
  refine ⟨by decide, by decide, ?_⟩
  exact chunkText_edge_spec.2 "aaaaaaaaaaaaaaaaaaaaaaaaaaaaaaaaaaaaaaaa" 3 1
    (by decide) (by decide)


/-! ## Cosine similarity (C1) -/

/-- Idealised JavaScript number appearing as a similarity score: a real
number or NaN.  Vector components are rationals (every IEEE double is
rational); `Math.sqrt` is modelled by the real square root.  In
`cosineSimilarity` the divisor `√normA * √normB` vanishes exactly when the
dot product does (see `dotQ_eq_zero_of_normSq`), so `0 / 0 = NaN` is the
only non-finite outcome and no infinity constructors are needed. -/
inductive JsVal where
  | num (x : ℝ)
  | nan

/-- `dotProduct` accumulator of `cosineSimilarity`: `Σ a[i] * b[i]`. -/
def dotQ (a b : List ℚ) : ℚ :=
  (List.zipWith (fun x y => x * y) a b).sum

/-- `normA`/`normB` accumulator of `cosineSimilarity`: `Σ a[i] * a[i]`. -/
def normSqQ (a : List ℚ) : ℚ :=
  (a.map (fun x => x * x)).sum

/-- `cosineSimilarity(a, b)`: `0` on length mismatch, otherwise
`dot / (Math.sqrt(normA) * Math.sqrt(normB))`.  The divisor is `0` iff
`normSqQ a * normSqQ b = 0` (square roots of nonnegatives), and then the
numerator is `0` as well, so that branch is JavaScript's `0 / 0 = NaN`. -/
noncomputable def cosineSimilarity (a b : List ℚ) : JsVal :=
  if a.length ≠ b.length then .num 0
  else if normSqQ a * normSqQ b = 0 then .nan
  else .num ((dotQ a b : ℝ) / (Real.sqrt (normSqQ a) * Real.sqrt (normSqQ b)))

theorem normSqQ_nonneg (a : List ℚ) : 0 ≤ normSqQ a := by
  refine List.sum_nonneg ?_
  intro x hx
  obtain ⟨y, _, rfl⟩ := List.mem_map.mp hx
  exact mul_self_nonneg y

theorem normSqQ_eq_zero_iff (a : List ℚ) : normSqQ a = 0 ↔ ∀ x ∈ a, x = 0 := by
  induction a with
  | nil => simp [normSqQ]
  | cons x a ih =>
    have hx2 : 0 ≤ x * x := mul_self_nonneg x
    have hrest : 0 ≤ normSqQ a := normSqQ_nonneg a
    rw [normSqQ, List.map_cons, List.sum_cons]
    rw [normSqQ] at hrest
    constructor
    · intro h
      have h1 : x * x = 0 := by nlinarith
      have h2 : (List.map (fun y => y * y) a).sum = 0 := by nlinarith
      intro y hy
      rcases List.mem_cons.mp hy with rfl | hmem
      · exact mul_self_eq_zero.mp h1
      · exact (ih.mp (by rw [normSqQ]; exact h2)) y hmem
    · intro h
      have hx : x = 0 := h x (List.mem_cons_self _ _)
      have ha0 : normSqQ a = 0 := ih.mpr fun y hy => h y (List.mem_cons_of_mem _ hy)
      rw [normSqQ] at ha0
      rw [hx, ha0]
      ring

theorem dotQ_zero_left (a b : List ℚ) (h : ∀ x ∈ a, x = 0) : dotQ a b = 0 := by
  induction a generalizing b with
  | nil => simp [dotQ]
  | cons x a ih =>
    cases b with
    | nil => simp [dotQ]
    | cons y b =>
      rw [dotQ, List.zipWith_cons_cons, List.sum_cons]
      have hx : x = 0 := h x (List.mem_cons_self _ _)
      have := ih b fun z hz => h z (List.mem_cons_of_mem _ hz)
      rw [dotQ] at this
      rw [hx, this]
      ring

theorem dotQ_zero_right (a b : List ℚ) (h : ∀ y ∈ b, y = 0) : dotQ a b = 0 := by
  induction a generalizing b with
  | nil => simp [dotQ]
  | cons x a ih =>
    cases b with
    | nil => simp [dotQ]
    | cons y b =>
      rw [dotQ, List.zipWith_cons_cons, List.sum_cons]
      have hy : y = 0 := h y (List.mem_cons_self _ _)
      have := ih b fun z hz => h z (List.mem_cons_of_mem _ hz)
      rw [dotQ] at this
      rw [hy, this]
      ring

/-- When the divisor of `cosineSimilarity` vanishes, so does the dot
product: the `.nan` branch is exactly JavaScript's `0 / 0`. -/
theorem dotQ_eq_zero_of_normSq (a b : List ℚ)
    (h : normSqQ a * normSqQ b = 0) : dotQ a b = 0 := by
  rcases mul_eq_zero.mp h with h0 | h0
  · exact dotQ_zero_left a b ((normSqQ_eq_zero_iff a).mp h0)
  · exact dotQ_zero_right a b ((normSqQ_eq_zero_iff b).mp h0)

theorem dotQ_eq_sum_range (a b : List ℚ) :
    dotQ a b = ∑ i ∈ Finset.range (min a.length b.length), a.getD i 0 * b.getD i 0 := by
  induction a generalizing b with
  | nil => simp [dotQ]
  | cons x a ih =>
    cases b with
    | nil => simp [dotQ]
    | cons y b =>
      rw [dotQ, List.zipWith_cons_cons, List.sum_cons]
      have hmin : min (x :: a).length (y :: b).length = min a.length b.length + 1 := by
        simp [Nat.succ_min_succ]
      rw [hmin, Finset.sum_range_succ']
      simp only [List.getD_cons_succ, List.getD_cons_zero]
      rw [← dotQ, ih b]
      ring

theorem normSqQ_eq_sum_range (a : List ℚ) :
    normSqQ a = ∑ i ∈ Finset.range a.length, a.getD i 0 * a.getD i 0 := by
  induction a with
  | nil => simp [normSqQ]
  | cons x a ih =>
    rw [normSqQ, List.map_cons, List.sum_cons]
    rw [List.length_cons, Finset.sum_range_succ']
    simp only [List.getD_cons_succ, List.getD_cons_zero]
    rw [← normSqQ, ih]
    ring

/-- Cauchy–Schwarz for the accumulators of `cosineSimilarity`. -/
theorem dotQ_sq_le (a b : List ℚ) (h : a.length = b.length) :
    dotQ a b ^ 2 ≤ normSqQ a * normSqQ b := by
  rw [dotQ_eq_sum_range, normSqQ_eq_sum_range, normSqQ_eq_sum_range, h, min_self]
  have := Finset.sum_mul_sq_le_sq_mul_sq (Finset.range b.length)
    (fun i => a.getD i 0) (fun i => b.getD i 0)
  simpa [sq] using this

/-- The finite branch of `cosineSimilarity` is bounded by 1 in absolute
value (Cauchy–Schwarz). -/
theorem cosineSimilarity_num_bound (a b : List ℚ) (h : a.length = b.length)
    (ha : normSqQ a ≠ 0) (hb : normSqQ b ≠ 0) :
    |(dotQ a b : ℝ) / (Real.sqrt (normSqQ a) * Real.sqrt (normSqQ b))| ≤ 1 := by
  have haQ : (0:ℚ) < normSqQ a := lt_of_le_of_ne (normSqQ_nonneg a) (Ne.symm ha)
  have hbQ : (0:ℚ) < normSqQ b := lt_of_le_of_ne (normSqQ_nonneg b) (Ne.symm hb)
  have haR : (0:ℝ) < (normSqQ a : ℝ) := by exact_mod_cast haQ
  have hbR : (0:ℝ) < (normSqQ b : ℝ) := by exact_mod_cast hbQ
  have hsa : (0:ℝ) < Real.sqrt (normSqQ a) := Real.sqrt_pos.mpr haR
  have hsb : (0:ℝ) < Real.sqrt (normSqQ b) := Real.sqrt_pos.mpr hbR
  have hD : (0:ℝ) < Real.sqrt (normSqQ a) * Real.sqrt (normSqQ b) := mul_pos hsa hsb
  have hcs : ((dotQ a b : ℝ)) ^ 2 ≤ (normSqQ a : ℝ) * (normSqQ b : ℝ) := by
    exact_mod_cast dotQ_sq_le a b h
  have habs : |(dotQ a b : ℝ)| ≤ Real.sqrt (normSqQ a) * Real.sqrt (normSqQ b) := by
    rw [← Real.sqrt_mul haR.le]
    calc |(dotQ a b : ℝ)| = Real.sqrt ((dotQ a b : ℝ) ^ 2) := (Real.sqrt_sq_eq_abs _).symm
    _ ≤ Real.sqrt ((normSqQ a : ℝ) * (normSqQ b : ℝ)) := Real.sqrt_le_sqrt hcs
  rw [abs_div, abs_of_pos hD]
  exact div_le_one_of_le₀ habs hD.le

/-- A similarity score that is a real number in `[-1, 1]`. -/
def jsValInRange (v : JsVal) : Prop :=
  ∃ x : ℝ, v = .num x ∧ -1 ≤ x ∧ x ≤ 1

/-- C1 (counterexample): on the zero vector compared with itself,
`cosineSimilarity` computes `0 / (√0 * √0) = 0 / 0`, i.e. NaN — not the
claimed `0`, and not a score in `[-1, 1]`. -/
theorem cosineSimilarity_nan_cex :
    cosineSimilarity [(0:ℚ)] [(0:ℚ)] = JsVal.nan ∧
      cosineSimilarity [(0:ℚ)] [(0:ℚ)] ≠ JsVal.num 0 ∧
      ¬ jsValInRange (cosineSimilarity [(0:ℚ)] [(0:ℚ)]) := by
  have h : cosineSimilarity [(0:ℚ)] [(0:ℚ)] = JsVal.nan := by
    rw [cosineSimilarity, if_neg (by simp), if_pos (by norm_num [normSqQ])]
  refine ⟨h, by rw [h]; simp, ?_⟩
  intro ⟨x, hx, _⟩
  rw [h] at hx
  exact JsVal.noConfusion hx

/-- C1 (amended): `cosineSimilarity` returns exactly `0` on length
mismatch; when the lengths agree and both vectors are nonzero it returns
`dot(a,b) / (‖a‖ * ‖b‖)`, a real score lying in `[-1, 1]`; when the
lengths agree and either vector is zero the computation is `0 / 0` and the
result is NaN, not `0`. -/
theorem cosineSimilarity_spec (a b : List ℚ) :
    (a.length ≠ b.length → cosineSimilarity a b = JsVal.num 0) ∧
    (a.length = b.length → normSqQ a ≠ 0 → normSqQ b ≠ 0 →
      cosineSimilarity a b =
        JsVal.num ((dotQ a b : ℝ) / (Real.sqrt (normSqQ a) * Real.sqrt (normSqQ b))) ∧
      jsValInRange (cosineSimilarity a b)) ∧
    (a.length = b.length → (normSqQ a = 0 ∨ normSqQ b = 0) →
      cosineSimilarity a b = JsVal.nan) := by
  refine ⟨?_, ?_, ?_⟩
  · intro h
    rw [cosineSimilarity, if_pos h]
  · intro h ha hb
    have hmul : normSqQ a * normSqQ b ≠ 0 := mul_ne_zero ha hb
    have heq : cosineSimilarity a b =
        JsVal.num ((dotQ a b : ℝ) / (Real.sqrt (normSqQ a) * Real.sqrt (normSqQ b))) := by
      rw [cosineSimilarity, if_neg (by simp [h]), if_neg hmul]
    refine ⟨heq, ?_⟩
    have := cosineSimilarity_num_bound a b h ha hb
    rw [abs_le] at this
    exact ⟨_, heq, this.1, this.2⟩
  · intro h h0
    have hmul : normSqQ a * normSqQ b = 0 := by
      rcases h0 with h0 | h0 <;> rw [h0] <;> ring
    rw [cosineSimilarity, if_neg (by simp [h]), if_pos hmul]

/-- C1 (witness): for `a = b = [1]` the amended theorem yields a score in
range (indeed `1 / (√1 * √1)`). -/
theorem cosineSimilarity_spec_witness :
    normSqQ [(1:ℚ)] ≠ 0 ∧ jsValInRange (cosineSimilarity [(1:ℚ)] [(1:ℚ)]) := by
  have h1 : normSqQ [(1:ℚ)] ≠ 0 := by norm_num [normSqQ]
  exact ⟨h1, ((cosineSimilarity_spec [(1:ℚ)] [(1:ℚ)]).2.1 rfl h1 h1).2⟩

/-! ## Stable descending sort by score (C3, C6) -/

/-- Numeric key of a score; NaN is only ever compared under the
all-numeric hypotheses below, where this key is the score itself. -/
noncomputable def jsKey : JsVal → ℝ
  | .num x => x
  | .nan => 0

/-- The Boolean "no swap demanded" relation of the JS comparator
`(a, b) => b.score - a.score` used with a stable sort: for numeric scores,
keep `x` before `y` iff `y.score ≤ x.score`; any comparison involving NaN
is a tie (ECMAScript `SortCompare` turns a NaN comparator value into `+0`). -/
noncomputable def descLe {α : Type} (sc : α → JsVal) (x y : α) : Bool :=
  match sc x, sc y with
  | .num a, .num b => decide (b ≤ a)
  | _, _ => true

/-- Total descending-key relation agreeing with `descLe` on NaN-free data. -/
noncomputable def keyDescLe {α : Type} (sc : α → JsVal) (x y : α) : Bool :=
  decide (jsKey (sc y) ≤ jsKey (sc x))

theorem keyDescLe_trans {α : Type} (sc : α → JsVal) (a b c : α)
    (h₁ : keyDescLe sc a b = true) (h₂ : keyDescLe sc b c = true) :
    keyDescLe sc a c = true := by
  rw [keyDescLe, decide_eq_true_iff] at h₁ h₂ ⊢
  exact le_trans h₂ h₁

theorem keyDescLe_total {α : Type} (sc : α → JsVal) (a b : α) :
    (keyDescLe sc a b || keyDescLe sc b a) = true := by
  rw [keyDescLe, keyDescLe]
  rcases le_total (jsKey (sc b)) (jsKey (sc a)) with h | h
  · simp [h]
  · simp [h]

theorem descLe_eq_keyDescLe {α : Type} (sc : α → JsVal) {l : List α}
    (h : ∀ a ∈ l, ∃ x, sc a = JsVal.num x) :
    ∀ a ∈ l, ∀ b ∈ l, descLe sc a b = keyDescLe sc a b := by
  intro a ha b hb
  obtain ⟨x, hx⟩ := h a ha
  obtain ⟨y, hy⟩ := h b hb
  rw [descLe, keyDescLe, hx, hy]
  simp [jsKey]

theorem mergeSort_descLe_eq {α : Type} (sc : α → JsVal) (l : List α)
    (h : ∀ a ∈ l, ∃ x, sc a = JsVal.num x) :
    l.mergeSort (descLe sc) = l.mergeSort (keyDescLe sc) := by
  have := List.map_mergeSort (descLe_eq_keyDescLe sc h) (f := id)
  simpa using this

theorem mergeSort_descLe_sorted {α : Type} (sc : α → JsVal) (l : List α)
    (h : ∀ a ∈ l, ∃ x, sc a = JsVal.num x) :
    List.Pairwise (fun a b => jsKey (sc b) ≤ jsKey (sc a)) (l.mergeSort (descLe sc)) := by
  rw [mergeSort_descLe_eq sc l h]
  have := List.sorted_mergeSort (keyDescLe_trans sc) (keyDescLe_total sc) l
  refine this.imp ?_
  intro a b hab
  rw [keyDescLe, decide_eq_true_iff] at hab
  exact hab

theorem mergeSort_descLe_stable {α : Type} (sc : α → JsVal) (l : List α)
    (h : ∀ a ∈ l, ∃ x, sc a = JsVal.num x) (a b : α)
    (hab : jsKey (sc b) ≤ jsKey (sc a)) (hsub : [a, b].Sublist l) :
    [a, b].Sublist (l.mergeSort (descLe sc)) := by
  rw [mergeSort_descLe_eq sc l h]
  refine List.sublist_mergeSort (keyDescLe_trans sc) (keyDescLe_total sc) ?_ hsub
  refine List.pairwise_pair.mpr ?_
  rw [keyDescLe, decide_eq_true_iff]
  exact hab

/-! ## Vault index and brute-force search (C3) -/

/-- `IndexedChunk`: a chunk of a vault document with its embedding. -/
structure IndexedChunk where
  file : TFile
  text : String
  embedding : List ℚ
  startLine : ℕ
  endLine : ℕ

/-- `VaultIndex`: the whole in-memory index. -/
structure VaultIndex where
  chunks : List IndexedChunk
  lastUpdated : ℕ

/-- One element of the `scored` intermediate array of `searchIndex`. -/
structure Scored where
  chunk : IndexedChunk
  score : JsVal

/-- `index.chunks.map(chunk => ({chunk, score: cosineSimilarity(...)}))`. -/
noncomputable def scoredChunks (index : VaultIndex) (queryEmbedding : List ℚ) : List Scored :=
  index.chunks.map fun c => ⟨c, cosineSimilarity queryEmbedding c.embedding⟩

/-- `scored.sort((a, b) => b.score - a.score)`: stable descending sort. -/
noncomputable def sortedScored (index : VaultIndex) (queryEmbedding : List ℚ) : List Scored :=
  (scoredChunks index queryEmbedding).mergeSort (descLe Scored.score)

/-- `searchIndex(index, queryEmbedding, topK)`: score, sort descending,
return the first `topK` chunks (`slice(0, topK).map(s => s.chunk)`). -/
noncomputable def searchIndex (index : VaultIndex) (queryEmbedding : List ℚ)
    (topK : ℕ) : List IndexedChunk :=
  ((sortedScored index queryEmbedding).take topK).map Scored.chunk

theorem sortedScored_perm (index : VaultIndex) (q : List ℚ) :
    (sortedScored index q).Perm (scoredChunks index q) :=
  List.mergeSort_perm _ _

/-- C3: `searchIndex` returns at most `topK` chunks; when `topK` is at
least the index size it returns all chunks (as a permutation, no error);
under the implicit premise of the claim that every score is an actual
number (no NaN), the output is sorted non-increasing by cosine-similarity
score, and score ties keep their original index order (stability of the
sort). -/
theorem searchIndex_spec (index : VaultIndex) (q : List ℚ) (topK : ℕ) :
    (searchIndex index q topK).length ≤ topK ∧
    (index.chunks.length ≤ topK → (searchIndex index q topK).Perm index.chunks) ∧
    ((∀ c ∈ index.chunks, ∃ x, cosineSimilarity q c.embedding = JsVal.num x) →
      List.Pairwise (fun c₁ c₂ =>
        jsKey (cosineSimilarity q c₂.embedding) ≤ jsKey (cosineSimilarity q c₁.embedding))
        (searchIndex index q topK)) ∧
    ((∀ c ∈ index.chunks, ∃ x, cosineSimilarity q c.embedding = JsVal.num x) →
      ∀ a b : Scored, [a, b].Sublist (scoredChunks index q) →
        jsKey b.score = jsKey a.score → [a, b].Sublist (sortedScored index q)) := by
  have hnum : (∀ c ∈ index.chunks, ∃ x, cosineSimilarity q c.embedding = JsVal.num x) →
      ∀ s ∈ scoredChunks index q, ∃ x, s.score = JsVal.num x := by
    intro h s hs
    obtain ⟨c, hc, rfl⟩ := List.mem_map.mp hs
    exact h c hc
  have hscore : ∀ s ∈ scoredChunks index q,
      s.score = cosineSimilarity q s.chunk.embedding := by
    intro s hs
    obtain ⟨c, _, rfl⟩ := List.mem_map.mp hs
    rfl
  refine ⟨?_, ?_, ?_, ?_⟩
  · rw [searchIndex, List.length_map]
    exact le_trans (List.length_take_le _ _) (le_refl _)
  · intro hk
    have hlen : (sortedScored index q).length = index.chunks.length := by
      rw [(sortedScored_perm index q).length_eq, scoredChunks, List.length_map]
    have htake : (sortedScored index q).take topK = sortedScored index q :=
      List.take_of_length_le (by omega)
    rw [searchIndex, htake]
    have hperm : ((sortedScored index q).map Scored.chunk).Perm
        ((scoredChunks index q).map Scored.chunk) :=
      (sortedScored_perm index q).map _
    have hmap : (scoredChunks index q).map Scored.chunk = index.chunks := by
      rw [scoredChunks, List.map_map]
      show List.map id index.chunks = index.chunks
      exact List.map_id _
    rw [hmap] at hperm
    exact hperm
  · intro h
    have hpw : List.Pairwise (fun s₁ s₂ => jsKey s₂.score ≤ jsKey s₁.score)
        (sortedScored index q) :=
      mergeSort_descLe_sorted Scored.score (scoredChunks index q) (hnum h)
    have hpwt : List.Pairwise (fun s₁ s₂ => jsKey s₂.score ≤ jsKey s₁.score)
        ((sortedScored index q).take topK) :=
      List.Pairwise.sublist (List.take_sublist _ _) hpw
    rw [searchIndex, List.pairwise_map]
    refine hpwt.imp_of_mem ?_
    intro s₁ s₂ hs₁ hs₂ hle
    have hm₁ : s₁ ∈ scoredChunks index q :=
      (sortedScored_perm index q).mem_iff.mp (List.mem_of_mem_take hs₁)
    have hm₂ : s₂ ∈ scoredChunks index q :=
      (sortedScored_perm index q).mem_iff.mp (List.mem_of_mem_take hs₂)
    rw [← hscore s₁ hm₁, ← hscore s₂ hm₂]
    exact hle
  · intro h a b hsub heq
    exact mergeSort_descLe_stable Scored.score (scoredChunks index q) (hnum h) a b
      (le_of_eq heq) hsub

/-- Concrete two-document index used by witnesses. -/
def wFileA : TFile := ⟨"a.md", "a", "md"⟩

def wFileB : TFile := ⟨"b.md", "b", "md"⟩

def wChunkA : IndexedChunk := ⟨wFileA, "alpha", [1], 0, 0⟩

def wChunkB : IndexedChunk := ⟨wFileB, "beta", [-1], 0, 0⟩

def wIndex : VaultIndex := ⟨[wChunkA, wChunkB], 0⟩

theorem wCosA : cosineSimilarity [(1:ℚ)] [(1:ℚ)] = JsVal.num 1 := by
  rw [cosineSimilarity, if_neg (by simp), if_neg (by norm_num [normSqQ])]
  norm_num [dotQ, normSqQ, Real.sqrt_one]

theorem wCosB : cosineSimilarity [(1:ℚ)] [(-1:ℚ)] = JsVal.num (-1) := by
  rw [cosineSimilarity, if_neg (by simp), if_neg (by norm_num [normSqQ])]
  norm_num [dotQ, normSqQ, Real.sqrt_one]

/-- C3 (witness): on the concrete two-chunk index with `topK = 5`, all
scores are numeric, all chunks are returned, and the result is sorted
non-increasing by score. -/
theorem searchIndex_spec_witness :
    wIndex.chunks.length ≤ 5 ∧
      (∀ c ∈ wIndex.chunks, ∃ x, cosineSimilarity [(1:ℚ)] c.embedding = JsVal.num x) ∧
      (searchIndex wIndex [(1:ℚ)] 5).Perm wIndex.chunks ∧
      List.Pairwise (fun c₁ c₂ => jsKey (cosineSimilarity [(1:ℚ)] c₂.embedding) ≤
        jsKey (cosineSimilarity [(1:ℚ)] c₁.embedding)) (searchIndex wIndex [(1:ℚ)] 5) := by
  have hlen : wIndex.chunks.length ≤ 5 := by norm_num [wIndex]
  have hnum : ∀ c ∈ wIndex.chunks, ∃ x, cosineSimilarity [(1:ℚ)] c.embedding = JsVal.num x := by
    intro c hc
    rcases List.mem_cons.mp hc with rfl | hc
    · exact ⟨1, wCosA⟩
    rcases List.mem_cons.mp hc with rfl | hc
    · exact ⟨-1, wCosB⟩
    · simp at hc
  exact ⟨hlen, hnum, (searchIndex_spec wIndex [(1:ℚ)] 5).2.1 hlen,
    (searchIndex_spec wIndex [(1:ℚ)] 5).2.2.1 hnum⟩

/-! ## Document-level discovery (C6) -/

/-- `MatchingChunk`: a chunk plus its individual score. -/
structure MatchingChunk where
  text : String
  startLine : ℕ
  endLine : ℕ
  score : JsVal

/-- The value type of the `fileScores` map: `{ file, scores, chunks }`. -/
structure FileEntry where
  file : TFile
  scores : List JsVal
  chunks : List MatchingChunk

/-- `SimilarNote`: one candidate document with its aggregate score. -/
structure SimilarNote where
  file : TFile
  score : JsVal
  selected : Bool
  matchingChunks : List MatchingChunk

/-- One `fileScores.set`/`push` round for a non-skipped chunk: append to the
existing entry for the path, or append a fresh entry at the end (JS `Map`
preserves insertion order; a new key goes last). -/
def updateEntry (m : List (String × FileEntry)) (p : String) (f : TFile)
    (s : JsVal) (mc : MatchingChunk) : List (String × FileEntry) :=
  match m with
  | [] => [(p, ⟨f, [s], [mc]⟩)]
  | (q, e) :: rest =>
    if q = p then (q, ⟨e.file, e.scores ++ [s], e.chunks ++ [mc]⟩) :: rest
    else (q, e) :: updateEntry rest p f s mc

/-- The body of the `for (const chunk of ...)` grouping loop: skip chunks
of the query document, otherwise score the chunk and record it under its
owning file's path. -/
noncomputable def groupStep (qpath : String) (qe : List ℚ)
    (acc : List (String × FileEntry)) (c : IndexedChunk) : List (String × FileEntry) :=
  if c.file.path = qpath then acc
  else
    updateEntry acc c.file.path c.file (cosineSimilarity qe c.embedding)
      ⟨c.text, c.startLine, c.endLine, cosineSimilarity qe c.embedding⟩

/-- The fully-built `fileScores` map, in insertion order. -/
noncomputable def fileScores (index : VaultIndex) (qpath : String) (qe : List ℚ) :
    List (String × FileEntry) :=
  index.chunks.foldl (groupStep qpath qe) []

/-- The individual scores of the considered (non-query) chunks owned by
document `p`, in index order. -/
noncomputable def groupScores (qpath : String) (qe : List ℚ) (p : String)
    (chunks : List IndexedChunk) : List JsVal :=
  (chunks.filter (fun c => c.file.path == p && !(c.file.path == qpath))).map
    (fun c => cosineSimilarity qe c.embedding)

/-- The matching-chunk records of the considered chunks owned by `p`. -/
noncomputable def groupMCs (qpath : String) (qe : List ℚ) (p : String)
    (chunks : List IndexedChunk) : List MatchingChunk :=
  (chunks.filter (fun c => c.file.path == p && !(c.file.path == qpath))).map
    (fun c => ⟨c.text, c.startLine, c.endLine, cosineSimilarity qe c.embedding⟩)

/-- JS `+` on scores: NaN absorbs. -/
noncomputable def jsAdd : JsVal → JsVal → JsVal
  | .num a, .num b => .num (a + b)
  | _, _ => .nan

/-- `scores.reduce((a, b) => a + b, 0)`. -/
noncomputable def jsSum (l : List JsVal) : JsVal :=
  l.foldl jsAdd (.num 0)

/-- Division of a score sum by `scores.length`.  The `n = 0` case only
arises for an empty score list, whose reduced sum is `0`, and JS `0 / 0`
is NaN. -/
noncomputable def jsDivNat : JsVal → ℕ → JsVal
  | .nan, _ => .nan
  | .num x, n => if n = 0 then .nan else .num (x / n)

/-- JS `avgScore >= threshold`: false when the score is NaN. -/
noncomputable def jsGe (v : JsVal) (t : ℝ) : Bool :=
  match v with
  | .num x => decide (t ≤ x)
  | .nan => false

/-- Turn one `fileScores` entry into a `SimilarNote`: average the scores,
sort the entry's chunks by score descending and keep the top 5, and
initialise `selected` by comparing the average against the threshold. -/
noncomputable def mkSimilarNote (threshold : ℝ) (e : FileEntry) : SimilarNote :=
  ⟨e.file, jsDivNat (jsSum e.scores) e.scores.length,
    jsGe (jsDivNat (jsSum e.scores) e.scores.length) threshold,
    (e.chunks.mergeSort (descLe MatchingChunk.score)).take 5⟩

/-- `findSimilarNotes` (lines 1032–1066): group non-query chunks by owning
file, aggregate each group, and sort the aggregates by average score
descending. -/
noncomputable def findSimilarNotes (index : VaultIndex) (queryFile : TFile)
    (qe : List ℚ) (threshold : ℝ) : List SimilarNote :=
  ((fileScores index queryFile.path qe).map (fun pe => mkSimilarNote threshold pe.2)).mergeSort
    (descLe SimilarNote.score)

theorem updateEntry_keys (m : List (String × FileEntry)) (p : String) (f : TFile)
    (s : JsVal) (mc : MatchingChunk) :
    (updateEntry m p f s mc).map Prod.fst =
      if p ∈ m.map Prod.fst then m.map Prod.fst else m.map Prod.fst ++ [p] := by
  induction m with
  | nil => simp [updateEntry]
  | cons qe₀ rest ih =>
    obtain ⟨q, e⟩ := qe₀
    by_cases hq : q = p
    · subst hq
      rw [updateEntry]
      simp
    · rw [updateEntry, if_neg hq]
      by_cases hp : p ∈ rest.map Prod.fst
      · simp only [List.map_cons, ih, if_pos hp]
        rw [if_pos (List.mem_cons_of_mem _ hp)]
      · have : p ∉ (q, e).fst :: rest.map Prod.fst := by
          intro hmem
          rcases List.mem_cons.mp hmem with h | h
          · exact hq h.symm
          · exact hp h
        simp only [List.map_cons, ih, if_neg hp]
        rw [if_neg (by simpa using this), List.cons_append]

theorem updateEntry_mem {m : List (String × FileEntry)} {p : String} {f : TFile}
    {s : JsVal} {mc : MatchingChunk} {q : String} {e : FileEntry}
    (hnd : (m.map Prod.fst).Nodup)
    (hmem : (q, e) ∈ updateEntry m p f s mc) :
    ((q, e) ∈ m ∧ q ≠ p) ∨
    (q = p ∧ ∃ e₁, (p, e₁) ∈ m ∧ e = ⟨e₁.file, e₁.scores ++ [s], e₁.chunks ++ [mc]⟩) ∨
    (q = p ∧ (∀ pe ∈ m, pe.1 ≠ p) ∧ e = ⟨f, [s], [mc]⟩) := by
  induction m with
  | nil =>
    rw [updateEntry] at hmem
    rcases List.mem_singleton.mp hmem with h
    refine Or.inr (Or.inr ?_)
    have h1 : q = p := congrArg Prod.fst h
    have h2 : e = ⟨f, [s], [mc]⟩ := congrArg Prod.snd h
    exact ⟨h1, by simp, h2⟩
  | cons qe₀ rest ih =>
    obtain ⟨q₀, e₀⟩ := qe₀
    rw [List.map_cons, List.nodup_cons] at hnd
    by_cases hq : q₀ = p
    · subst hq
      rw [updateEntry, if_pos rfl] at hmem
      rcases List.mem_cons.mp hmem with h | h
      · have h1 : q = q₀ := congrArg Prod.fst h
        have h2 : e = ⟨e₀.file, e₀.scores ++ [s], e₀.chunks ++ [mc]⟩ := congrArg Prod.snd h
        exact Or.inr (Or.inl ⟨h1, e₀, List.mem_cons_self _ _, h2⟩)
      · refine Or.inl ⟨List.mem_cons_of_mem _ h, ?_⟩
        intro hqp
        subst hqp
        exact hnd.1 (List.mem_map.mpr ⟨(q, e), h, rfl⟩)
    · rw [updateEntry, if_neg hq] at hmem
      rcases List.mem_cons.mp hmem with h | h
      · have h1 : q = q₀ := congrArg Prod.fst h
        have h2 : e = e₀ := congrArg Prod.snd h
        subst h1; subst h2
        exact Or.inl ⟨List.mem_cons_self _ _, fun hqp => hq hqp⟩
      · rcases ih hnd.2 h with ⟨hm, hne⟩ | ⟨hqp, e₁, he₁, he⟩ | ⟨hqp, hall, he⟩
        · exact Or.inl ⟨List.mem_cons_of_mem _ hm, hne⟩
        · exact Or.inr (Or.inl ⟨hqp, e₁, List.mem_cons_of_mem _ he₁, he⟩)
        · refine Or.inr (Or.inr ⟨hqp, ?_, he⟩)
          intro pe hpe
          rcases List.mem_cons.mp hpe with rfl | hpe
          · exact hq
          · exact hall pe hpe

theorem groupScores_append_one (qpath : String) (qe : List ℚ) (p : String)
    (processed : List IndexedChunk) (c : IndexedChunk) :
    groupScores qpath qe p (processed ++ [c]) =
      groupScores qpath qe p processed ++
        (if c.file.path = p ∧ c.file.path ≠ qpath
         then [cosineSimilarity qe c.embedding] else []) := by
  rw [groupScores, groupScores, List.filter_append, List.map_append]
  congr 1
  by_cases h1 : c.file.path = p <;> by_cases h2 : c.file.path = qpath <;>
    by_cases h3 : p = qpath <;> simp [List.filter_cons, h1, h2, h3]

theorem groupMCs_append_one (qpath : String) (qe : List ℚ) (p : String)
    (processed : List IndexedChunk) (c : IndexedChunk) :
    groupMCs qpath qe p (processed ++ [c]) =
      groupMCs qpath qe p processed ++
        (if c.file.path = p ∧ c.file.path ≠ qpath
         then [⟨c.text, c.startLine, c.endLine, cosineSimilarity qe c.embedding⟩]
         else []) := by
  rw [groupMCs, groupMCs, List.filter_append, List.map_append]
  congr 1
  by_cases h1 : c.file.path = p <;> by_cases h2 : c.file.path = qpath <;>
    by_cases h3 : p = qpath <;> simp [List.filter_cons, h1, h2, h3]

/-- The invariant of the grouping loop after processing a prefix of the
chunk list. -/
def entryInv (qpath : String) (qe : List ℚ) (processed : List IndexedChunk)
    (acc : List (String × FileEntry)) : Prop :=
  (∀ pe ∈ acc, pe.1 ≠ qpath ∧ pe.2.file.path = pe.1 ∧
    pe.2.scores = groupScores qpath qe pe.1 processed ∧
    pe.2.chunks = groupMCs qpath qe pe.1 processed ∧
    pe.2.scores ≠ []) ∧
  (acc.map Prod.fst).Nodup ∧
  (∀ c ∈ processed, c.file.path ≠ qpath → c.file.path ∈ acc.map Prod.fst)

theorem entryInv_nil (qpath : String) (qe : List ℚ) : entryInv qpath qe [] [] := by
  refine ⟨?_, ?_, ?_⟩ <;> simp

theorem entryInv_step (qpath : String) (qe : List ℚ)
    (processed : List IndexedChunk) (acc : List (String × FileEntry))
    (c : IndexedChunk) (h : entryInv qpath qe processed acc) :
    entryInv qpath qe (processed ++ [c]) (groupStep qpath qe acc c) := by
  obtain ⟨hENT, hND, hEX⟩ := h
  by_cases hskip : c.file.path = qpath
  · rw [groupStep, if_pos hskip]
    refine ⟨?_, hND, ?_⟩
    · intro pe hpe
      obtain ⟨h1, h2, h3, h4, h5⟩ := hENT pe hpe
      have hcond : ¬(c.file.path = pe.1 ∧ c.file.path ≠ qpath) := by
        intro hc; exact hc.2 hskip
      rw [groupScores_append_one, if_neg hcond, List.append_nil,
        groupMCs_append_one, if_neg hcond, List.append_nil] at *
      exact ⟨h1, h2, h3, h4, h5⟩
    · intro c' hc' hne
      rcases List.mem_append.mp hc' with hm | hm
      · exact hEX c' hm hne
      · rw [List.mem_singleton.mp hm] at hne
        exact absurd hskip hne
  · rw [groupStep, if_neg hskip]
    have hkeys := updateEntry_keys acc c.file.path c.file
      (cosineSimilarity qe c.embedding)
      ⟨c.text, c.startLine, c.endLine, cosineSimilarity qe c.embedding⟩
    refine ⟨?_, ?_, ?_⟩
    · intro pe hpe
      obtain ⟨q, e⟩ := pe
      rcases updateEntry_mem hND hpe with ⟨hm, hne⟩ | ⟨rfl, e₁, he₁, rfl⟩ | ⟨rfl, hall, rfl⟩
      · obtain ⟨h1, h2, h3, h4, h5⟩ := hENT (q, e) hm
        have hcond : ¬(c.file.path = q ∧ c.file.path ≠ qpath) := by
          intro hc; exact hne hc.1.symm
        rw [groupScores_append_one, if_neg hcond, List.append_nil,
          groupMCs_append_one, if_neg hcond, List.append_nil]
        exact ⟨h1, h2, h3, h4, h5⟩
      · obtain ⟨h1, h2, h3, h4, h5⟩ := hENT (c.file.path, e₁) he₁
        have hcond : c.file.path = c.file.path ∧ c.file.path ≠ qpath := ⟨rfl, hskip⟩
        rw [groupScores_append_one, if_pos hcond, groupMCs_append_one, if_pos hcond]
        refine ⟨h1, h2, ?_, ?_, by simp⟩
        · show e₁.scores ++ _ = _
          rw [h3]
        · show e₁.chunks ++ _ = _
          rw [h4]
      · have hgs : groupScores qpath qe c.file.path processed = [] := by
          by_contra hne
          obtain ⟨v, hv⟩ := List.exists_mem_of_ne_nil _ hne
          rw [groupScores] at hv
          obtain ⟨c', hc', _⟩ := List.mem_map.mp hv
          rw [List.mem_filter] at hc'
          have hpath : c'.file.path = c.file.path := by
            have := hc'.2
            rw [Bool.and_eq_true, beq_iff_eq] at this
            exact this.1
          have hnq : c'.file.path ≠ qpath := by
            have := hc'.2
            rw [Bool.and_eq_true, Bool.not_eq_true', beq_eq_false_iff_ne] at this
            exact this.2
          have := hEX c' hc'.1 hnq
          obtain ⟨pe, hpe, hpeq⟩ := List.mem_map.mp this
          rw [hpath] at hpeq
          exact hall pe hpe (by rw [hpeq])
        have hgm : groupMCs qpath qe c.file.path processed = [] := by
          rw [groupMCs]
          rw [groupScores] at hgs
          rw [List.map_eq_nil_iff] at hgs ⊢
          exact hgs
        have hcond : c.file.path = c.file.path ∧ c.file.path ≠ qpath := ⟨rfl, hskip⟩
        refine ⟨hskip, rfl, ?_, ?_, by simp⟩
        · show [cosineSimilarity qe c.embedding] = _
          rw [groupScores_append_one, if_pos hcond, hgs, List.nil_append]
        · show [(⟨c.text, c.startLine, c.endLine, cosineSimilarity qe c.embedding⟩ :
            MatchingChunk)] = _
          rw [groupMCs_append_one, if_pos hcond, hgm, List.nil_append]
    · rw [hkeys]
      by_cases hp : c.file.path ∈ acc.map Prod.fst
      · rw [if_pos hp]; exact hND
      · rw [if_neg hp]
        rw [List.nodup_append]
        exact ⟨hND, List.nodup_singleton _, by
          intro a ha hb
          rw [List.mem_singleton] at hb
          subst hb
          exact hp ha⟩
    · intro c' hc' hne
      have hsub : ∀ k, k ∈ acc.map Prod.fst → k ∈ (updateEntry acc c.file.path c.file
          (cosineSimilarity qe c.embedding)
          ⟨c.text, c.startLine, c.endLine, cosineSimilarity qe c.embedding⟩).map Prod.fst := by
        intro k hk
        rw [hkeys]
        by_cases hp : c.file.path ∈ acc.map Prod.fst
        · rw [if_pos hp]; exact hk
        · rw [if_neg hp]; exact List.mem_append_left _ hk
      rcases List.mem_append.mp hc' with hm | hm
      · exact hsub _ (hEX c' hm hne)
      · rw [List.mem_singleton.mp hm]
        rw [hkeys]
        by_cases hp : c.file.path ∈ acc.map Prod.fst
        · rw [if_pos hp]; exact hp
        · rw [if_neg hp]; exact List.mem_append_right _ (List.mem_singleton.mpr rfl)

theorem foldl_entryInv (qpath : String) (qe : List ℚ) :
    ∀ (rest processed : List IndexedChunk) (acc : List (String × FileEntry)),
      entryInv qpath qe processed acc →
      entryInv qpath qe (processed ++ rest) (rest.foldl (groupStep qpath qe) acc) := by
  intro rest
  induction rest with
  | nil => intro processed acc h; simpa using h
  | cons c cs ih =>
    intro processed acc h
    have h' := entryInv_step qpath qe processed acc c h
    have := ih (processed ++ [c]) _ h'
    simpa using this

theorem fileScores_inv (index : VaultIndex) (qpath : String) (qe : List ℚ) :
    entryInv qpath qe index.chunks (fileScores index qpath qe) := by
  have := foldl_entryInv qpath qe index.chunks [] [] (entryInv_nil qpath qe)
  simpa [fileScores] using this

theorem jsSum_num_aux (l : List JsVal) :
    ∀ x₀ : ℝ, (∀ v ∈ l, ∃ x, v = JsVal.num x) →
      ∃ x, List.foldl jsAdd (JsVal.num x₀) l = JsVal.num x := by
  induction l with
  | nil => intro x₀ _; exact ⟨x₀, rfl⟩
  | cons v vs ih =>
    intro x₀ h
    obtain ⟨y, rfl⟩ := h v (List.mem_cons_self _ _)
    have := ih (x₀ + y) fun w hw => h w (List.mem_cons_of_mem _ hw)
    simpa [jsAdd] using this

theorem jsSum_num (l : List JsVal) (h : ∀ v ∈ l, ∃ x, v = JsVal.num x) :
    ∃ x, jsSum l = JsVal.num x :=
  jsSum_num_aux l 0 h

/-- C6: every note returned by `findSimilarNotes` belongs to a document
other than the query document and to a document actually owning at least
one considered chunk; its score is the arithmetic mean (JS sum-then-divide)
of the cosine similarities of all of that document's considered chunks; its
`matchingChunks` are the top 5 of those chunks by individual score
(stable-descending sort, then `slice(0, 5)`); every considered document
appears; and, when every chunk's score is an actual number, the result is
sorted non-increasing by mean score. -/
theorem findSimilarNotes_spec (index : VaultIndex) (queryFile : TFile)
    (qe : List ℚ) (t : ℝ) :
    (∀ n ∈ findSimilarNotes index queryFile qe t,
      n.file.path ≠ queryFile.path ∧
      n.score = jsDivNat (jsSum (groupScores queryFile.path qe n.file.path index.chunks))
        (groupScores queryFile.path qe n.file.path index.chunks).length ∧
      n.matchingChunks = ((groupMCs queryFile.path qe n.file.path index.chunks).mergeSort
        (descLe MatchingChunk.score)).take 5 ∧
      n.matchingChunks.length ≤ 5 ∧
      (∃ c ∈ index.chunks, c.file.path = n.file.path ∧ c.file.path ≠ queryFile.path)) ∧
    (∀ c ∈ index.chunks, c.file.path ≠ queryFile.path →
      ∃ n ∈ findSimilarNotes index queryFile qe t, n.file.path = c.file.path) ∧
    ((∀ c ∈ index.chunks, ∃ x, cosineSimilarity qe c.embedding = JsVal.num x) →
      List.Pairwise (fun n₁ n₂ => jsKey n₂.score ≤ jsKey n₁.score)
        (findSimilarNotes index queryFile qe t)) := by
  obtain ⟨hENT, hND, hEX⟩ := fileScores_inv index queryFile.path qe
  have hmem : ∀ n ∈ findSimilarNotes index queryFile qe t,
      ∃ pe ∈ fileScores index queryFile.path qe, n = mkSimilarNote t pe.2 := by
    intro n hn
    rw [findSimilarNotes] at hn
    have := (List.mergeSort_perm _ _).mem_iff.mp hn
    obtain ⟨pe, hpe, rfl⟩ := List.mem_map.mp this
    exact ⟨pe, hpe, rfl⟩
  refine ⟨?_, ?_, ?_⟩
  · intro n hn
    obtain ⟨pe, hpe, rfl⟩ := hmem n hn
    obtain ⟨h1, h2, h3, h4, h5⟩ := hENT pe hpe
    have hfile : (mkSimilarNote t pe.2).file.path = pe.1 := h2
    refine ⟨by rw [hfile]; exact h1, ?_, ?_, ?_, ?_⟩
    · show jsDivNat (jsSum pe.2.scores) pe.2.scores.length = _
      rw [hfile, h3]
    · show ((pe.2.chunks.mergeSort (descLe MatchingChunk.score)).take 5) = _
      rw [hfile, h4]
    · show ((pe.2.chunks.mergeSort (descLe MatchingChunk.score)).take 5).length ≤ 5
      exact le_trans (List.length_take_le _ _) (le_refl _)
    · rw [hfile]
      have hne : groupScores queryFile.path qe pe.1 index.chunks ≠ [] := by
        rw [← h3]; exact h5
      obtain ⟨v, hv⟩ := List.exists_mem_of_ne_nil _ hne
      rw [groupScores] at hv
      obtain ⟨c, hc, _⟩ := List.mem_map.mp hv
      rw [List.mem_filter, Bool.and_eq_true, beq_iff_eq, Bool.not_eq_true',
        beq_eq_false_iff_ne] at hc
      exact ⟨c, hc.1, hc.2.1, hc.2.2⟩
  · intro c hc hne
    have hkey := hEX c hc hne
    obtain ⟨pe, hpe, hpeq⟩ := List.mem_map.mp hkey
    refine ⟨mkSimilarNote t pe.2, ?_, ?_⟩
    · rw [findSimilarNotes]
      refine (List.mergeSort_perm _ _).mem_iff.mpr ?_
      exact List.mem_map.mpr ⟨pe, hpe, rfl⟩
    · have h2 := (hENT pe hpe).2.1
      show pe.2.file.path = c.file.path
      rw [h2, hpeq]
  · intro hnumAll
    rw [findSimilarNotes]
    refine mergeSort_descLe_sorted SimilarNote.score _ ?_
    intro n hn
    obtain ⟨pe, hpe, rfl⟩ := List.mem_map.mp hn
    obtain ⟨_, _, h3, _, h5⟩ := hENT pe hpe
    have hsnum : ∀ v ∈ pe.2.scores, ∃ x, v = JsVal.num x := by
      intro v hv
      rw [h3, groupScores] at hv
      obtain ⟨c, hc, rfl⟩ := List.mem_map.mp hv
      exact hnumAll c (List.mem_filter.mp hc).1
    obtain ⟨x, hx⟩ := jsSum_num pe.2.scores hsnum
    have hlen : pe.2.scores.length ≠ 0 := by
      intro h0
      exact h5 (List.length_eq_zero.mp h0)
    refine ⟨x / pe.2.scores.length, ?_⟩
    show jsDivNat (jsSum pe.2.scores) pe.2.scores.length = _
    rw [hx, jsDivNat, if_neg hlen]

/-- Query document used by the discovery witness. -/
def wFileQ : TFile := ⟨"q.md", "q", "md"⟩

/-- C6 (witness): on the concrete index, with query document `q.md`, the
candidate document `a.md` appears in the result, and the result is sorted
non-increasing by mean score (all scores being numeric). -/
theorem findSimilarNotes_spec_witness :
    (wChunkA ∈ wIndex.chunks ∧ wChunkA.file.path ≠ wFileQ.path) ∧
      (∃ n ∈ findSimilarNotes wIndex wFileQ [(1:ℚ)] 0, n.file.path = wChunkA.file.path) ∧
      List.Pairwise (fun n₁ n₂ => jsKey n₂.score ≤ jsKey n₁.score)
        (findSimilarNotes wIndex wFileQ [(1:ℚ)] 0) := by
  have hmem : wChunkA ∈ wIndex.chunks := List.mem_cons_self _ _
  have hne : wChunkA.file.path ≠ wFileQ.path := by decide
  have hnum : ∀ c ∈ wIndex.chunks, ∃ x, cosineSimilarity [(1:ℚ)] c.embedding = JsVal.num x := by
    intro c hc
    rcases List.mem_cons.mp hc with rfl | hc
    · exact ⟨1, wCosA⟩
    rcases List.mem_cons.mp hc with rfl | hc
    · exact ⟨-1, wCosB⟩
    · simp at hc
  exact ⟨⟨hmem, hne⟩,
    (findSimilarNotes_spec wIndex wFileQ [(1:ℚ)] 0).2.1 wChunkA hmem hne,
    (findSimilarNotes_spec wIndex wFileQ [(1:ℚ)] 0).2.2 hnum⟩

/-! ## Threshold re-filter (C8) -/

/-- `filterSimilarNotes`: recompute `selected` for every already-computed
note as `score >= threshold`.  A pure function of the note list and the
threshold: no score, chunk list or membership changes, and no embedding or
search is involved. -/
noncomputable def filterSimilarNotes (threshold : ℝ) (notes : List SimilarNote) :
    List SimilarNote :=
  notes.map fun n => ⟨n.file, n.score, jsGe n.score threshold, n.matchingChunks⟩

/-- C8: the threshold re-filter keeps the list membership, order, files,
scores and matching chunks unchanged and only recomputes `selected`, which
becomes `score >= threshold` (false for a NaN score, and `t ≤ x` exactly
for a numeric score `x`). -/
theorem filterSimilarNotes_spec (t : ℝ) (notes : List SimilarNote) :
    (filterSimilarNotes t notes).length = notes.length ∧
    List.Forall₂ (fun n m => m.file = n.file ∧ m.score = n.score ∧
      m.matchingChunks = n.matchingChunks ∧ m.selected = jsGe n.score t ∧
      (∀ x : ℝ, n.score = JsVal.num x → (m.selected = true ↔ t ≤ x)))
      notes (filterSimilarNotes t notes) := by
  constructor
  · rw [filterSimilarNotes, List.length_map]
  · rw [filterSimilarNotes, List.forall₂_map_right_iff]
    rw [List.forall₂_same]
    intro n _
    refine ⟨rfl, rfl, rfl, rfl, ?_⟩
    intro x hx
    show jsGe n.score t = true ↔ t ≤ x
    rw [hx, jsGe]
    exact decide_eq_true_iff

/-! ## Chat send & rollback (C4) -/

/-- Model of JavaScript `input.trim()`: strip whitespace from both ends. -/
def jsTrim (s : String) : String :=
  String.mk (((s.data.dropWhile Char.isWhitespace).reverse.dropWhile
    Char.isWhitespace).reverse)

inductive ChatRole where
  | user
  | assistant
  | system
deriving DecidableEq, Repr

/-- `ChatMessage`: one entry of the conversation history. -/
structure ChatMessage where
  role : ChatRole
  content : String
deriving DecidableEq, Repr

/-- The chat state touched by `sendMessage`: the message history and the
in-flight flag. -/
structure ChatState where
  messages : List ChatMessage
  isLoading : Bool
deriving DecidableEq, Repr

/-- `sendMessage` (lines 1476–1536), with the completion call's outcome
passed in as an `Except` (the semantic search and prompt assembly never
touch `messages`, so they are omitted from this state model): reject
empty/in-flight/credential-less sends unchanged; otherwise optimistically
append the user message, then on success append the assistant message and
on failure `pop` the optimistic user message; `finally` clears the flag. -/
def sendMessage (st : ChatState) (rawInput : String) (apiKey : String)
    (completion : Except String String) : ChatState :=
  let userInput := jsTrim rawInput
  if userInput = "" ∨ st.isLoading then st
  else if apiKey = "" then st
  else
    match completion with
    | .ok response =>
      ⟨(st.messages ++ [⟨.user, userInput⟩]) ++ [⟨.assistant, response⟩], false⟩
    | .error _ =>
      ⟨(st.messages ++ [ChatMessage.mk .user userInput]).dropLast, false⟩

/-- C4: when the completion call fails, the optimistically-appended user
message is rolled back, no assistant message is committed, and the history
is exactly what it was before the send (in particular its length is
unchanged); the loading flag is cleared. -/
theorem sendMessage_error_spec (st : ChatState) (rawInput apiKey err : String)
    (h1 : jsTrim rawInput ≠ "") (h2 : st.isLoading = false) (h3 : apiKey ≠ "") :
    sendMessage st rawInput apiKey (.error err) = ⟨st.messages, false⟩ ∧
      (sendMessage st rawInput apiKey (.error err)).messages.length =
        st.messages.length := by
  have hcond : ¬(jsTrim rawInput = "" ∨ st.isLoading = true) := by
    intro hc
    rcases hc with hc | hc
    · exact h1 hc
    · rw [h2] at hc; exact Bool.noConfusion hc
  have heq : sendMessage st rawInput apiKey (.error err) = ⟨st.messages, false⟩ := by
    unfold sendMessage
    rw [if_neg (by simpa using hcond), if_neg h3]
    show (⟨(st.messages ++ [ChatMessage.mk .user (jsTrim rawInput)]).dropLast, false⟩ :
        ChatState) = (⟨st.messages, false⟩ : ChatState)
    rw [List.dropLast_concat]
  exact ⟨heq, by rw [heq]⟩

/-- C4 (witness): a concrete failed send (HTTP 500) leaves the one-message
history of the state unchanged. -/
theorem sendMessage_error_spec_witness :
    jsTrim "hello" ≠ "" ∧
      sendMessage ⟨[⟨.system, "sys"⟩], false⟩ "hello" "lm-studio"
        (.error "API error 500") = ⟨[⟨.system, "sys"⟩], false⟩ := by
  have h1 : jsTrim "hello" ≠ "" := by decide
  exact ⟨h1, (sendMessage_error_spec ⟨[⟨.system, "sys"⟩], false⟩ "hello" "lm-studio"
    "API error 500" h1 rfl (by decide)).1⟩

/-! ## Rebuild mutual exclusion (C5) -/

/-- The plugin state touched by `rebuildIndex`: the current index and the
`isIndexing` guard flag. -/
structure PluginState where
  vaultIndex : VaultIndex
  isIndexing : Bool

/-- `rebuildIndex` (lines 309–363): if a rebuild is already in flight,
report and return with everything untouched (the `Bool` result records
that rejection); otherwise run the rebuild body — abstracted by `build`,
since reading and embedding the corpus is external I/O parked behind
`await` — whose success replaces the index and whose thrown error leaves
the old index in place; the `finally` clears `isIndexing` on both paths. -/
def rebuildIndex (st : PluginState) (build : Except String VaultIndex) :
    PluginState × Bool :=
  if st.isIndexing then (st, true)
  else
    match build with
    | .ok newIndex => (⟨newIndex, false⟩, false)
    | .error _ => (⟨st.vaultIndex, false⟩, false)

/-- C5: a rebuild requested while one is in flight is rejected immediately
with the state untouched; otherwise the guard flag is cleared on every
exit path — successful build (which installs the new index) and thrown
error (which keeps the old index) alike. -/
theorem rebuildIndex_spec (st : PluginState) (build : Except String VaultIndex) :
    (st.isIndexing = true → rebuildIndex st build = (st, true)) ∧
    (st.isIndexing = false →
      (rebuildIndex st build).1.isIndexing = false ∧
      (rebuildIndex st build).2 = false ∧
      (∀ e, build = .error e → (rebuildIndex st build).1.vaultIndex = st.vaultIndex) ∧
      (∀ idx, build = .ok idx → (rebuildIndex st build).1.vaultIndex = idx)) := by
  constructor
  · intro h
    unfold rebuildIndex
    rw [if_pos h]
  · intro h
    unfold rebuildIndex
    rw [if_neg (by rw [h]; exact Bool.false_ne_true)]
    cases build with
    | ok idx => exact ⟨rfl, rfl, fun e he => Except.noConfusion he, fun i hi => by
        cases hi; rfl⟩
    | error e => exact ⟨rfl, rfl, fun e' he' => rfl, fun i hi => Except.noConfusion hi⟩

/-- C5 (witness): a request against an in-flight state is rejected
unchanged, and a failed rebuild against an idle state clears the flag and
keeps the old index. -/
theorem rebuildIndex_spec_witness :
    rebuildIndex ⟨⟨[], 7⟩, true⟩ (.error "boom") = (⟨⟨[], 7⟩, true⟩, true) ∧
      (rebuildIndex ⟨⟨[], 7⟩, false⟩ (.error "boom")).1.isIndexing = false ∧
      (rebuildIndex ⟨⟨[], 7⟩, false⟩ (.error "boom")).1.vaultIndex = ⟨[], 7⟩ := by
  refine ⟨(rebuildIndex_spec ⟨⟨[], 7⟩, true⟩ (.error "boom")).1 rfl, ?_, ?_⟩
  · exact ((rebuildIndex_spec ⟨⟨[], 7⟩, false⟩ (.error "boom")).2 rfl).1
  · exact ((rebuildIndex_spec ⟨⟨[], 7⟩, false⟩ (.error "boom")).2 rfl).2.2.1 "boom" rfl

/-! ## Index loading with dead-path pruning (C9) -/

/-- One record of the persisted `index.json` (`filePath` replaces the live
file reference). -/
structure StoredChunk where
  filePath : String
  text : String
  embedding : List ℚ
  startLine : ℕ
  endLine : ℕ

/-- The persisted index document. -/
structure PersistedIndex where
  chunks : List StoredChunk
  lastUpdated : ℕ

/-- `loadIndex` (lines 247–284): `store = none` models a missing file
(`adapter.exists` false), in which case the method returns leaving
`vaultIndex` at its initial value (`{chunks: [], lastUpdated: 0}`).
Otherwise every record is re-resolved through
`getAbstractFileByPath`+`instanceof TFile` (the `resolve` argument);
records whose path no longer resolves are skipped, resolving records are
rebuilt in order. -/
def loadIndex (store : Option PersistedIndex) (resolve : String → Option TFile)
    (current : VaultIndex) : VaultIndex :=
  match store with
  | none => current
  | some parsed =>
    ⟨parsed.chunks.filterMap fun item =>
        (resolve item.filePath).map fun f =>
          ⟨f, item.text, item.embedding, item.startLine, item.endLine⟩,
      parsed.lastUpdated⟩

/-- C9: with no persisted store the initial (empty) index is kept and no
error is raised (the function is total); with a store, the loaded chunk
list is exactly the in-order image of the records whose stored path still
resolves — every resolvable record is kept with all its fields, and every
record whose path no longer resolves is silently dropped (the lengths
match the resolvable filter). -/
theorem loadIndex_spec (resolve : String → Option TFile) (parsed : PersistedIndex)
    (current : VaultIndex) :
    loadIndex none resolve ⟨[], 0⟩ = ⟨[], 0⟩ ∧
    loadIndex none resolve current = current ∧
    List.Forall₂ (fun (it : StoredChunk) (c : IndexedChunk) =>
        resolve it.filePath = some c.file ∧ c.text = it.text ∧
        c.embedding = it.embedding ∧ c.startLine = it.startLine ∧ c.endLine = it.endLine)
      (parsed.chunks.filter fun it => (resolve it.filePath).isSome)
      (loadIndex (some parsed) resolve current).chunks ∧
    (loadIndex (some parsed) resolve current).chunks.length =
      (parsed.chunks.filter fun it => (resolve it.filePath).isSome).length ∧
    (loadIndex (some parsed) resolve current).lastUpdated = parsed.lastUpdated := by
  have hfa : ∀ l : List StoredChunk,
      List.Forall₂ (fun (it : StoredChunk) (c : IndexedChunk) =>
        resolve it.filePath = some c.file ∧ c.text = it.text ∧
        c.embedding = it.embedding ∧ c.startLine = it.startLine ∧ c.endLine = it.endLine)
      (l.filter fun it => (resolve it.filePath).isSome)
      (l.filterMap fun item => (resolve item.filePath).map fun f =>
        ⟨f, item.text, item.embedding, item.startLine, item.endLine⟩) := by
    intro l
    induction l with
    | nil => simp
    | cons it rest ih =>
      cases hres : resolve it.filePath with
      | none =>
        rw [List.filter_cons, List.filterMap_cons]
        simp only [hres, Option.isSome_none, Option.map_none']
        exact ih
      | some f =>
        rw [List.filter_cons, List.filterMap_cons]
        simp only [hres, Option.isSome_some, Option.map_some']
        exact List.Forall₂.cons ⟨hres, rfl, rfl, rfl, rfl⟩ ih
  refine ⟨rfl, rfl, hfa parsed.chunks, ?_, rfl⟩
  exact ((hfa parsed.chunks).length_eq).symm

/-! ## Context-note deduplication (C10) -/

/-- The guarded append shared by every context-add path:
`if (!contextNotes.find(f => f.path === file.path)) contextNotes.push(file)`. -/
def addContextNote (notes : List TFile) (f : TFile) : List TFile :=
  if notes.any fun g => g.path == f.path then notes else notes ++ [f]

/-- One user-level context-note addition.  Payloads carry what the host
environment supplies: the resolved dropped file, the picked file, the tag
predicate from the metadata cache together with the vault file list, the
picked folder with the vault file list, or the resolved links of the
active note. -/
inductive ContextOp where
  | dropNote (file : TFile)
  | pickNote (file : TFile)
  | pickTag (hasTag : TFile → Bool) (files : List TFile)
  | pickFolder (folder : String) (files : List TFile)
  | linkedNotes (resolved : List (Option TFile))

/-- The effect of one addition on `contextNotes` (lines 1441–1452, 1222–
1230, 1232–1259, 1262–1279, 1281–1303): every path performs the same
guarded, path-keyed append per candidate file; drops additionally require
the `md` extension, folder picks require the path to sit under the folder,
linked notes skip unresolved links. -/
def applyOp (notes : List TFile) : ContextOp → List TFile
  | .dropNote f => if f.extension = "md" then addContextNote notes f else notes
  | .pickNote f => addContextNote notes f
  | .pickTag hasTag files =>
    files.foldl (fun acc g => if hasTag g then addContextNote acc g else acc) notes
  | .pickFolder folder files =>
    files.foldl
      (fun acc g => if g.path.startsWith (folder ++ "/") then addContextNote acc g else acc)
      notes
  | .linkedNotes resolved =>
    resolved.foldl
      (fun acc og => match og with | some g => addContextNote acc g | none => acc) notes

theorem addContextNote_nodup (notes : List TFile) (f : TFile)
    (h : (notes.map TFile.path).Nodup) :
    ((addContextNote notes f).map TFile.path).Nodup := by
  rw [addContextNote]
  by_cases hc : (notes.any fun g => g.path == f.path) = true
  · rw [if_pos hc]; exact h
  · rw [if_neg hc, List.map_append, List.nodup_append]
    refine ⟨h, List.nodup_singleton _, ?_⟩
    intro p hp hmem
    rw [List.map_singleton, List.mem_singleton] at hmem
    subst hmem
    obtain ⟨g, hg, hgp⟩ := List.mem_map.mp hp
    apply hc
    rw [List.any_eq_true]
    exact ⟨g, hg, by rw [beq_iff_eq]; exact hgp⟩

theorem foldl_nodup {β : Type} (g : List TFile → β → List TFile)
    (hg : ∀ acc b, (acc.map TFile.path).Nodup → ((g acc b).map TFile.path).Nodup) :
    ∀ (l : List β) (notes : List TFile), (notes.map TFile.path).Nodup →
      ((l.foldl g notes).map TFile.path).Nodup := by
  intro l
  induction l with
  | nil => intro notes h; exact h
  | cons b bs ih =>
    intro notes h
    exact ih (g notes b) (hg notes b h)

theorem applyOp_nodup (notes : List TFile) (op : ContextOp)
    (h : (notes.map TFile.path).Nodup) :
    ((applyOp notes op).map TFile.path).Nodup := by
  cases op with
  | dropNote f =>
    rw [applyOp]
    by_cases he : f.extension = "md"
    · rw [if_pos he]; exact addContextNote_nodup notes f h
    · rw [if_neg he]; exact h
  | pickNote f => exact addContextNote_nodup notes f h
  | pickTag hasTag files =>
    refine foldl_nodup _ ?_ files notes h
    intro acc b hacc
    by_cases hb : hasTag b = true
    · simpa [hb] using addContextNote_nodup acc b hacc
    · simpa [hb] using hacc
  | pickFolder folder files =>
    refine foldl_nodup _ ?_ files notes h
    intro acc b hacc
    by_cases hb : b.path.startsWith (folder ++ "/") = true
    · simpa [hb] using addContextNote_nodup acc b hacc
    · simpa [hb] using hacc
  | linkedNotes resolved =>
    refine foldl_nodup _ ?_ resolved notes h
    intro acc ob hacc
    cases ob with
    | some b => exact addContextNote_nodup acc b hacc
    | none => exact hacc

/-- C10: after any sequence of context-note additions (drag-and-drop, note
picker, tag picker, folder picker, linked notes) starting from a
duplicate-free context list, the context list still contains at most one
entry per document path. -/
theorem contextNotes_nodup (ops : List ContextOp) :
    ∀ (notes : List TFile), (notes.map TFile.path).Nodup →
      ((ops.foldl applyOp notes).map TFile.path).Nodup := by
  induction ops with
  | nil => intro notes h; exact h
  | cons op rest ih =>
    intro notes h
    exact ih (applyOp notes op) (applyOp_nodup notes op h)

/-- C10 (witness): adding `a.md` twice and dropping `b.md` onto the empty
context list leaves the path list duplicate-free. -/
theorem contextNotes_nodup_witness :
    (([] : List TFile).map TFile.path).Nodup ∧
      ((([ContextOp.pickNote wFileA, ContextOp.pickNote wFileA,
          ContextOp.dropNote wFileB].foldl applyOp [])).map TFile.path).Nodup := by
  refine ⟨by simp, ?_⟩
  exact contextNotes_nodup _ [] (by simp)

/-- C8 (witness): re-filtering a concrete one-note list at threshold 0
keeps everything but `selected`. -/
theorem filterSimilarNotes_spec_witness :
    (filterSimilarNotes 0 [⟨wFileA, JsVal.num 1, false, []⟩]).length = 1 ∧
      List.Forall₂ (fun (n m : SimilarNote) => m.file = n.file ∧ m.score = n.score ∧
        m.matchingChunks = n.matchingChunks ∧ m.selected = jsGe n.score 0 ∧
        (∀ x : ℝ, n.score = JsVal.num x → (m.selected = true ↔ (0:ℝ) ≤ x)))
        [⟨wFileA, JsVal.num 1, false, []⟩]
        (filterSimilarNotes 0 [⟨wFileA, JsVal.num 1, false, []⟩]) := by
  have h := filterSimilarNotes_spec 0 [⟨wFileA, JsVal.num 1, false, []⟩]
  exact ⟨h.1, h.2⟩

/-- Resolver used by the load witness: only `a.md` still exists. -/
def wResolve : String → Option TFile :=
  fun p => if p = "a.md" then some wFileA else none

/-- Persisted store used by the load witness: one live and one dead record. -/
def wParsed : PersistedIndex :=
  ⟨[⟨"a.md", "alpha", [1], 0, 0⟩, ⟨"gone.md", "x", [1], 0, 0⟩], 42⟩

/-- C9 (witness): loading the concrete store drops the dead record (the
loaded length equals the resolvable count) and a missing store yields the
initial empty index. -/
theorem loadIndex_spec_witness :
    loadIndex none wResolve ⟨[], 0⟩ = ⟨[], 0⟩ ∧
      (loadIndex (some wParsed) wResolve ⟨[], 0⟩).chunks.length =
        ((wParsed.chunks.filter fun it => (wResolve it.filePath).isSome)).length := by
  exact ⟨(loadIndex_spec wResolve wParsed ⟨[], 0⟩).1,
    (loadIndex_spec wResolve wParsed ⟨[], 0⟩).2.2.2.1⟩
